import Mathlib

/-!
Verification development for the off-chain deployment/migration control plane
of the repository: the scenario migration constraint solver
(MigrationConstraint / VerifyMigrationConstraint), and the DeploymentManager
(deploy idempotency, retry/backoff, alias registry, artifact storage,
runDeployScript).

The embedding is shallow: each TypeScript function is translated into an
executable Lean definition over explicit state.  Migration actions
(`prepare`/`enact`/`verify`/`enacted`) are user-supplied code in the source,
so they stay abstract functions over a state type.  Observable calls issued
by the orchestration code are accumulated in an explicit event log.
-/

/-- Calls issued by the migration solver loop, in order. `storeArtifactCall`
is the event `DeploymentManager.storeArtifact` would record; it is part of
the vocabulary so that its absence from a run is expressible. -/
inductive MigEvent
  | prepareCall (name : String)
  | enactCall (name : String)
  | verifyCall (name : String)
  | storeArtifactCall (name : String)
  deriving DecidableEq, Repr

/-- The `Actions` record of a migration unit (from
`plugins/deployment_manager/Migration`): `prepare` produces an artifact and
may mutate state, `enacted` is an optional idempotency predicate, `enact`
consumes the artifact, `verify` is an optional post-check.  All four are
arbitrary user code over the execution state `S`. -/
structure Actions (S A : Type) where
  prepare : S → A × S
  enacted : Option (S → Bool)
  enact : A → S → S
  verify : Option (S → S)

/-- A migration unit: a name plus its actions. -/
structure Migration (S A : Type) where
  name : String
  actions : Actions S A

variable {S A : Type}

/-- `isEnacted` from the scenario constraint file: the predicate when the
unit defines one, otherwise `false`. -/
def isEnacted (a : Actions S A) (s : S) : Bool :=
  match a.enacted with
  | some f => f s
  | none => false

/-- One iteration of the migration loop of `MigrationConstraint.solve`
(prepare; check `isEnacted`; enact only when not enacted), together with the
calls it issues. -/
def runMigration (m : Migration S A) (s : S) : S × List MigEvent :=
  let p := m.actions.prepare s
  if isEnacted m.actions p.2 then
    (p.2, [.prepareCall m.name])
  else
    (m.actions.enact p.1 p.2, [.prepareCall m.name, .enactCall m.name])

/-- The migration loop over an already-ordered list. -/
def runMigrationList (ms : List (Migration S A)) (s : S) : S × List MigEvent :=
  match ms with
  | [] => (s, [])
  | m :: rest =>
    let r1 := runMigration m s
    let r2 := runMigrationList rest r1.1
    (r2.1, r1.2 ++ r2.2)

/-- One iteration of the loop of `VerifyMigrationConstraint.solve`:
`verify` runs when the unit defines it and `isEnacted` is `false` at this
point. -/
def runVerifyStep (m : Migration S A) (s : S) : S × List MigEvent :=
  match m.actions.verify with
  | some f =>
    if isEnacted m.actions s then (s, [])
    else (f s, [.verifyCall m.name])
  | none => (s, [])

/-- The verification loop over the recorded migration list. -/
def runVerify (ms : List (Migration S A)) (s : S) : S × List MigEvent :=
  match ms with
  | [] => (s, [])
  | m :: rest =>
    let r1 := runVerifyStep m s
    let r2 := runVerify rest r1.1
    (r2.1, r1.2 ++ r2.2)

/-- Lexicographic code-unit comparison on character lists: the embedding of
`localeCompare` for the ASCII migration names the repository uses. -/
def leChars : List Char → List Char → Bool
  | [], _ => true
  | _ :: _, [] => false
  | a :: as, b :: bs =>
    if a.toNat < b.toNat then true
    else if b.toNat < a.toNat then false
    else leChars as bs

theorem leChars_total : ∀ as bs, leChars as bs = true ∨ leChars bs as = true
  | [], _ => Or.inl rfl
  | _ :: _, [] => Or.inr rfl
  | a :: as, b :: bs => by
    rcases Nat.lt_trichotomy a.toNat b.toNat with h | h | h
    · exact Or.inl (by rw [leChars, if_pos h])
    · have n1 : ¬ a.toNat < b.toNat := by omega
      have n2 : ¬ b.toNat < a.toNat := by omega
      rcases leChars_total as bs with ih | ih
      · exact Or.inl (by rw [leChars, if_neg n1, if_neg n2]; exact ih)
      · exact Or.inr (by rw [leChars, if_neg n2, if_neg n1]; exact ih)
    · exact Or.inr (by rw [leChars, if_pos h])

theorem leChars_trans : ∀ as bs cs, leChars as bs = true → leChars bs cs = true →
    leChars as cs = true
  | [], _, _, _, _ => rfl
  | _ :: _, [], _, h1, _ => by simp [leChars] at h1
  | _ :: _, _ :: _, [], _, h2 => by simp [leChars] at h2
  | a :: as, b :: bs, c :: cs, h1, h2 => by
    rw [leChars] at h1 h2 ⊢
    rcases Nat.lt_trichotomy a.toNat b.toNat with hab | hab | hab
    · rcases Nat.lt_trichotomy b.toNat c.toNat with hbc | hbc | hbc
      · rw [if_pos (by omega : a.toNat < c.toNat)]
      · rw [if_pos (by omega : a.toNat < c.toNat)]
      · rw [if_neg (by omega : ¬ b.toNat < c.toNat),
            if_pos (by omega : c.toNat < b.toNat)] at h2
        exact absurd h2 (by simp)
    · rcases Nat.lt_trichotomy b.toNat c.toNat with hbc | hbc | hbc
      · rw [if_pos (by omega : a.toNat < c.toNat)]
      · rw [if_neg (by omega : ¬ a.toNat < b.toNat),
            if_neg (by omega : ¬ b.toNat < a.toNat)] at h1
        rw [if_neg (by omega : ¬ b.toNat < c.toNat),
            if_neg (by omega : ¬ c.toNat < b.toNat)] at h2
        rw [if_neg (by omega : ¬ a.toNat < c.toNat),
            if_neg (by omega : ¬ c.toNat < a.toNat)]
        exact leChars_trans as bs cs h1 h2
      · rw [if_neg (by omega : ¬ b.toNat < c.toNat),
            if_pos (by omega : c.toNat < b.toNat)] at h2
        exact absurd h2 (by simp)
    · rw [if_neg (by omega : ¬ a.toNat < b.toNat),
          if_pos (by omega : b.toNat < a.toNat)] at h1
      exact absurd h1 (by simp)

theorem leChars_antisymm : ∀ as bs, leChars as bs = true → leChars bs as = true → as = bs
  | [], [], _, _ => rfl
  | [], _ :: _, _, h2 => by simp [leChars] at h2
  | _ :: _, [], h1, _ => by simp [leChars] at h1
  | a :: as, b :: bs, h1, h2 => by
    rw [leChars] at h1 h2
    rcases Nat.lt_trichotomy a.toNat b.toNat with hab | hab | hab
    · rw [if_neg (by omega : ¬ b.toNat < a.toNat),
          if_pos (by omega : a.toNat < b.toNat)] at h2
      exact absurd h2 (by simp)
    · have ha : a = b := Char.ext (UInt32.ext hab)
      rw [if_neg (by omega : ¬ a.toNat < b.toNat),
          if_neg (by omega : ¬ b.toNat < a.toNat)] at h1
      rw [if_neg (by omega : ¬ b.toNat < a.toNat),
          if_neg (by omega : ¬ a.toNat < b.toNat)] at h2
      rw [ha, leChars_antisymm as bs h1 h2]
    · rw [if_neg (by omega : ¬ a.toNat < b.toNat),
          if_pos (by omega : b.toNat < a.toNat)] at h1
      exact absurd h1 (by simp)

/-- Name order on strings (code-unit lexicographic, the `localeCompare`
order for ASCII names). -/
def nameLe (a b : String) : Prop := leChars a.data b.data = true

instance : DecidableRel nameLe :=
  fun a b => inferInstanceAs (Decidable (leChars a.data b.data = true))

instance : IsTotal String nameLe := ⟨fun a b => leChars_total a.data b.data⟩

instance : IsTrans String nameLe := ⟨fun a b c => leChars_trans a.data b.data c.data⟩

instance : IsAntisymm String nameLe :=
  ⟨fun a b h1 h2 => String.ext (leChars_antisymm a.data b.data h1 h2)⟩

/-- Ordering used by `migrationList.sort((a, b) => a.name.localeCompare(b.name))`:
comparison of unit names. -/
def migLe (a b : Migration S A) : Prop := nameLe a.name b.name

instance : DecidableRel (@migLe S A) :=
  fun a b => inferInstanceAs (Decidable (nameLe a.name b.name))

instance : IsTotal (Migration S A) migLe :=
  ⟨fun a b => leChars_total a.name.data b.name.data⟩

instance : IsTrans (Migration S A) migLe :=
  ⟨fun a b c => leChars_trans a.name.data b.name.data c.name.data⟩

/-- The in-place sort on line 43 of the constraint file, as a stable sort by
unit name. -/
def sortMigrations (ms : List (Migration S A)) : List (Migration S A) :=
  ms.insertionSort migLe

/-- The scenario context as the solver sees it: execution state, the
migration list recorded by the migration solution (`ctx.migrations`), and
the log of calls issued. -/
structure Ctx (S A : Type) where
  state : S
  migrations : Option (List (Migration S A))
  log : List MigEvent

/-- The Solution pushed by `MigrationConstraint.solve` for one subset:
sort the subset by name, record it on the context, then run the
prepare/enact loop. -/
def migrationSolution (migrationList : List (Migration S A)) (ctx : Ctx S A) : Ctx S A :=
  let sorted := sortMigrations migrationList
  let r := runMigrationList sorted ctx.state
  { state := r.1, migrations := some sorted, log := ctx.log ++ r.2 }

/-- The single Solution of `VerifyMigrationConstraint.solve`: re-walk the
recorded subset, verifying units not enacted at the time of this check. -/
def verifySolution (ctx : Ctx S A) : Ctx S A :=
  match ctx.migrations with
  | none => ctx
  | some ms =>
    let r := runVerify ms ctx.state
    { ctx with state := r.1, log := ctx.log ++ r.2 }

/-- Names of the units prepared by a run, in call order. -/
def runNames (ev : List MigEvent) : List String :=
  ev.filterMap (fun e => match e with | .prepareCall n => some n | _ => none)

/-- Names of the units verified by a run, in call order. -/
def verifyNames (ev : List MigEvent) : List String :=
  ev.filterMap (fun e => match e with | .verifyCall n => some n | _ => none)

/-- Modelled from the spec: the `subsets` generator (from `scenario/utils`,
not among the shown sources) enumerates every subset of the discovered pool
— the powerset, empty subset included. -/
def subsets : List α → List (List α)
  | [] => [[]]
  | a :: t => subsets t ++ (subsets t).map (a :: ·)

/-- The subset enumeration of `MigrationConstraint.solve` (lines 25–33):
one Solution per generated subset, except that the empty subset is skipped
when there is more than one subset and `WITHOUT_MIGRATIONS` is not set. -/
def solveSubsets (withoutMigrations : Bool) (pool : List α) : List (List α) :=
  let migrationPaths := subsets pool
  migrationPaths.filter (fun migrationList =>
    !(migrationList.length == 0 && decide (1 < migrationPaths.length) && !withoutMigrations))

/-- Every loop iteration issues exactly one `prepare` call for its unit. -/
theorem runNames_runMigration (m : Migration S A) (s : S) :
    runNames (runMigration m s).2 = [m.name] := by
  rw [runMigration]
  cases h : isEnacted m.actions (m.actions.prepare s).2 <;> simp [h, runNames]

/-- The migration loop prepares the units of its input list, in list order. -/
theorem runNames_runMigrationList (ms : List (Migration S A)) (s : S) :
    runNames (runMigrationList ms s).2 = ms.map (·.name) := by
  induction ms generalizing s with
  | nil => rfl
  | cons m rest ih =>
    rw [runMigrationList]
    simp only [runNames, List.filterMap_append]
    rw [← runNames, ← runNames, runNames_runMigration, ih]
    rfl

/-- The sorted migration list is sorted by name. -/
theorem sorted_names_sortMigrations (ms : List (Migration S A)) :
    List.Pairwise nameLe ((sortMigrations ms).map (·.name)) :=
  List.Pairwise.map (fun m : Migration S A => m.name) (fun _ _ h => h)
    (List.sorted_insertionSort migLe ms)

/-- The sorted name list depends only on the multiset of units. -/
theorem names_sortMigrations_perm (ms ms' : List (Migration S A)) (h : ms.Perm ms') :
    (sortMigrations ms).map (·.name) = (sortMigrations ms').map (·.name) := by
  have h1 : ((sortMigrations ms).map (·.name)).Perm (ms.map (·.name)) :=
    (List.perm_insertionSort migLe ms).map _
  have h2 : (ms.map (·.name)).Perm (ms'.map (·.name)) := h.map _
  have h3 : ((sortMigrations ms').map (·.name)).Perm (ms'.map (·.name)) :=
    (List.perm_insertionSort migLe ms').map _
  exact List.eq_of_perm_of_sorted ((h1.trans h2).trans h3.symm)
    (sorted_names_sortMigrations ms) (sorted_names_sortMigrations ms')

/-- A concrete migration unit named "1000_a" with trivial actions. -/
def mA1000 : Migration (List String) Unit :=
  ⟨"1000_a", ⟨fun s => ((), s), none, fun _ s => s, none⟩⟩

/-- A concrete migration unit named "1000_b" with trivial actions. -/
def mB1000 : Migration (List String) Unit :=
  ⟨"1000_b", ⟨fun s => ((), s), none, fun _ s => s, none⟩⟩

/-- C4: the Solver replays every subset sorted lexically by unit name — the
order of the prepare calls in a scenario run is the sorted name list, it is
identical for any two discovery orders of the same subset, and the subset
{"1000_b","1000_a"} is replayed as ["1000_a","1000_b"]. -/
theorem solver_replays_lexically_sorted (ms ms' : List (Migration S A)) (s : S)
    (hperm : ms.Perm ms') :
    runNames (migrationSolution ms ⟨s, none, []⟩).log
      = runNames (migrationSolution ms' ⟨s, none, []⟩).log
    ∧ List.Pairwise nameLe (runNames (migrationSolution ms ⟨s, none, []⟩).log)
    ∧ runNames (migrationSolution [mB1000, mA1000]
        ⟨([] : List String), none, []⟩).log = ["1000_a", "1000_b"] := by
  have hlog : ∀ (t : List (Migration S A)) (u : S),
      runNames (migrationSolution t ⟨u, none, []⟩).log
        = (sortMigrations t).map (·.name) := by
    intro t u
    simp only [migrationSolution, List.nil_append]
    exact runNames_runMigrationList _ _
  refine ⟨?_, ?_, ?_⟩
  · rw [hlog, hlog]
    exact names_sortMigrations_perm ms ms' hperm
  · rw [hlog]
    exact sorted_names_sortMigrations ms
  · decide

/-- Witness for C4 at the concrete two-unit pool, listing the units in the
"wrong" discovery order. -/
theorem solver_replays_lexically_sorted_witness :
    ([mB1000, mA1000] : List (Migration (List String) Unit)).Perm [mA1000, mB1000]
    ∧ runNames (migrationSolution [mB1000, mA1000]
        ⟨([] : List String), none, []⟩).log
      = runNames (migrationSolution [mA1000, mB1000]
        ⟨([] : List String), none, []⟩).log :=
  ⟨List.Perm.swap mA1000 mB1000 [],
    (solver_replays_lexically_sorted [mB1000, mA1000] [mA1000, mB1000] []
      (List.Perm.swap mA1000 mB1000 [])).1⟩

/-- C10: a unit with no `enacted` predicate is treated as never enacted:
each run issues its `enact` right after `prepare`, and the verification
pass always reaches its `verify` action when one is defined. -/
theorem no_enacted_predicate_always_runs (m : Migration S A)
    (hnone : m.actions.enacted = none) :
    (∀ s : S, (runMigration m s).2 = [.prepareCall m.name, .enactCall m.name])
    ∧ (∀ (ms : List (Migration S A)) (s : S), m ∈ ms → m.actions.verify.isSome →
        MigEvent.verifyCall m.name ∈ (runVerify ms s).2) := by
  constructor
  · intro s
    rw [runMigration]
    simp [isEnacted, hnone]
  · intro ms s hmem hv
    induction ms generalizing s with
    | nil => cases hmem
    | cons a rest ih =>
      rw [runVerify]
      rcases List.mem_cons.mp hmem with heq | htail
      · subst heq
        obtain ⟨f, hf⟩ := Option.isSome_iff_exists.mp hv
        apply List.mem_append_left
        rw [runVerifyStep, hf]
        simp [isEnacted, hnone]
      · exact List.mem_append_right _ (ih _ htail)

/-- Concrete unit for the C10 witness: no `enacted` predicate, a `verify`
action defined. -/
def mNoPred : Migration (List String) Unit :=
  ⟨"1700_x", ⟨fun s => ((), s), none, fun _ s => s, some (fun s => s)⟩⟩

/-- Witness for C10 at a concrete unit. -/
theorem no_enacted_predicate_always_runs_witness :
    mNoPred.actions.enacted = none
    ∧ (runMigration mNoPred []).2 = [.prepareCall "1700_x", .enactCall "1700_x"]
    ∧ MigEvent.verifyCall "1700_x" ∈ (runVerify [mNoPred] []).2 :=
  ⟨rfl, (no_enacted_predicate_always_runs mNoPred rfl).1 [],
    (no_enacted_predicate_always_runs mNoPred rfl).2 [mNoPred] []
      (List.mem_singleton.mpr rfl) rfl⟩

/-- The migration state instantiated for the idempotency claims: the set of
names whose migrations have been applied to the underlying execution state. -/
abbrev FlagState := List String

/-- All three effectful actions of a unit preserve applied-migration flags:
enactment is never undone by preparing, enacting or verifying. -/
def monotoneActs (m : Migration FlagState A) : Prop :=
  (∀ s x, x ∈ s → x ∈ (m.actions.prepare s).2)
  ∧ (∀ a s x, x ∈ s → x ∈ m.actions.enact a s)
  ∧ (∀ f, m.actions.verify = some f → ∀ s x, x ∈ s → x ∈ f s)

/-- A successful `enact` records the unit as applied — the half of the
spec invariant that makes `enacted()` true immediately after `enact`. -/
def setsOwnFlag (m : Migration FlagState A) : Prop :=
  ∀ a s, m.name ∈ m.actions.enact a s

/-- The unit's `enacted` predicate (when defined) faithfully reports whether
the unit has been applied to the state. -/
def readsOwnFlag (m : Migration FlagState A) : Prop :=
  ∀ p, m.actions.enacted = some p → ∀ s : FlagState, p s = s.contains m.name

/-- `isEnacted` evaluates the predicate when one is defined. -/
theorem isEnacted_some (a : Actions S A) (p : S → Bool) (hp : a.enacted = some p)
    (s : S) : isEnacted a s = p s := by
  rw [isEnacted, hp]

/-- C2: the loop checks `enacted()` (after `prepare`) before `enact`, and a
true check short-circuits the destructive call; for a unit whose predicate
satisfies the spec invariant, a second pass over the state produced by a
successful first pass issues zero `enact` calls, so at most one `enact` is
issued across both passes. -/
theorem enact_at_most_once (m : Migration FlagState A) (s0 : FlagState)
    (hmono : monotoneActs m) (hset : setsOwnFlag m) (hread : readsOwnFlag m)
    (hsome : m.actions.enacted.isSome) :
    (∀ s, isEnacted m.actions (m.actions.prepare s).2 = true →
      ((runMigration m s).2.count (MigEvent.enactCall m.name)) = 0)
    ∧ ((runMigration m (runMigration m s0).1).2.count (MigEvent.enactCall m.name)) = 0
    ∧ (((runMigration m s0).2 ++ (runMigration m (runMigration m s0).1).2).count
        (MigEvent.enactCall m.name)) ≤ 1 := by
  obtain ⟨p, hp⟩ := Option.isSome_iff_exists.mp hsome
  have hskip : ∀ s, isEnacted m.actions (m.actions.prepare s).2 = true →
      ((runMigration m s).2.count (MigEvent.enactCall m.name)) = 0 := by
    intro s h
    rw [runMigration]
    simp only [h, if_pos]
    simp
  have hflag : m.name ∈ (runMigration m s0).1 := by
    rw [runMigration]
    cases h : isEnacted m.actions (m.actions.prepare s0).2 with
    | true =>
      simp only [if_pos]
      rw [isEnacted_some m.actions p hp, hread p hp] at h
      simpa using h
    | false =>
      simp only [Bool.false_eq_true, if_neg]
      exact hset _ _
  have hsecond : ((runMigration m (runMigration m s0).1).2.count
      (MigEvent.enactCall m.name)) = 0 := by
    apply hskip
    rw [isEnacted_some m.actions p hp, hread p hp]
    simpa using hmono.1 _ _ hflag
  refine ⟨hskip, hsecond, ?_⟩
  rw [List.count_append, hsecond]
  rw [runMigration]
  cases h : isEnacted m.actions (m.actions.prepare s0).2 <;> simp

/-- Concrete unit for the C2 witness: its predicate reads exactly its own
applied-flag and its `enact` records it. -/
def mFlagged : Migration FlagState Unit :=
  ⟨"1600_m", ⟨fun s => ((), s), some (fun s => s.contains "1600_m"),
    fun _ s => "1600_m" :: s, none⟩⟩

theorem mFlagged_monotone : monotoneActs mFlagged :=
  ⟨fun _ _ h => h, fun _ _ _ h => List.mem_cons_of_mem _ h, fun _ hf => by cases hf⟩

theorem mFlagged_sets : setsOwnFlag mFlagged := fun _ s => List.mem_cons_self _ s

theorem mFlagged_reads : readsOwnFlag mFlagged := by
  intro p hp s
  injection hp with h
  rw [← h]
  rfl

/-- Witness for C2 at a concrete unit and the empty initial state. -/
theorem enact_at_most_once_witness :
    monotoneActs mFlagged ∧ setsOwnFlag mFlagged ∧ readsOwnFlag mFlagged
    ∧ mFlagged.actions.enacted.isSome
    ∧ ((runMigration mFlagged (runMigration mFlagged []).1).2.count
        (MigEvent.enactCall "1600_m")) = 0 :=
  ⟨mFlagged_monotone, mFlagged_sets, mFlagged_reads, rfl,
    (enact_at_most_once mFlagged [] mFlagged_monotone mFlagged_sets
      mFlagged_reads rfl).2.1⟩

/-- The migration loop issues no verify calls. -/
theorem verifyNames_runMigrationList (ms : List (Migration S A)) (s : S) :
    verifyNames (runMigrationList ms s).2 = [] := by
  induction ms generalizing s with
  | nil => rfl
  | cons m rest ih =>
    rw [runMigrationList]
    simp only [verifyNames, List.filterMap_append]
    rw [← verifyNames, ← verifyNames, ih]
    have hstep : verifyNames (runMigration m s).2 = [] := by
      rw [runMigration]
      cases h : isEnacted m.actions (m.actions.prepare s).2 <;> simp [verifyNames]
    rw [hstep]
    rfl

/-- One loop iteration of a monotone unit preserves applied flags. -/
theorem runMigration_preserves (m : Migration FlagState A) (hm : monotoneActs m)
    (s : FlagState) (x : String) (hx : x ∈ s) : x ∈ (runMigration m s).1 := by
  rw [runMigration]
  cases h : isEnacted m.actions (m.actions.prepare s).2 with
  | true =>
    simp only [if_pos]
    exact hm.1 _ _ hx
  | false =>
    simp only [Bool.false_eq_true, if_neg]
    exact hm.2.1 _ _ _ (hm.1 _ _ hx)

/-- The whole migration pass over monotone units preserves applied flags. -/
theorem runMigrationList_preserves (ms : List (Migration FlagState A))
    (hm : ∀ m ∈ ms, monotoneActs m) (s : FlagState) (x : String) (hx : x ∈ s) :
    x ∈ (runMigrationList ms s).1 := by
  induction ms generalizing s with
  | nil => exact hx
  | cons m rest ih =>
    exact ih (fun m' h' => hm m' (List.mem_cons_of_mem _ h')) _
      (runMigration_preserves m (hm m (List.mem_cons_self _ _)) s x hx)

/-- After the migration pass, every unit of the list is applied: it was
either found enacted at its check (its predicate was true, so its flag was
set) or freshly enacted (its `enact` set the flag), and later iterations
preserve the flag. -/
theorem runMigrationList_flags (ms : List (Migration FlagState A))
    (hm : ∀ m ∈ ms, monotoneActs m) (hset : ∀ m ∈ ms, setsOwnFlag m)
    (hread : ∀ m ∈ ms, readsOwnFlag m) (s : FlagState) :
    ∀ m ∈ ms, m.name ∈ (runMigrationList ms s).1 := by
  induction ms generalizing s with
  | nil => intro m h; cases h
  | cons a rest ih =>
    intro m hmem
    rcases List.mem_cons.mp hmem with heq | htail
    · subst heq
      apply runMigrationList_preserves rest
        (fun m' h' => hm m' (List.mem_cons_of_mem _ h'))
      rw [runMigration]
      cases h : isEnacted m.actions (m.actions.prepare s).2 with
      | true =>
        simp only [if_pos]
        rcases hopt : m.actions.enacted with _ | p
        · rw [isEnacted, hopt] at h
          cases h
        · rw [isEnacted_some m.actions p hopt,
              hread m (List.mem_cons_self _ _) p hopt] at h
          simpa using h
      | false =>
        simp only [Bool.false_eq_true, if_neg]
        exact hset m (List.mem_cons_self _ _) _ _
    · exact ih (fun m' h' => hm m' (List.mem_cons_of_mem _ h'))
        (fun m' h' => hset m' (List.mem_cons_of_mem _ h'))
        (fun m' h' => hread m' (List.mem_cons_of_mem _ h')) _ m htail

/-- Once every listed unit is applied, the verify loop calls `verify`
exactly on the units that define it but define no `enacted` predicate. -/
theorem runVerify_events (ms : List (Migration FlagState A))
    (hm : ∀ m ∈ ms, monotoneActs m) (hread : ∀ m ∈ ms, readsOwnFlag m)
    (s : FlagState) (hs : ∀ m ∈ ms, m.name ∈ s) :
    (runVerify ms s).2
      = (ms.filter (fun m => m.actions.verify.isSome && m.actions.enacted.isNone)).map
          (fun m => MigEvent.verifyCall m.name) := by
  induction ms generalizing s with
  | nil => rfl
  | cons a rest ih =>
    have hmr : ∀ m ∈ rest, monotoneActs m :=
      fun m' h' => hm m' (List.mem_cons_of_mem _ h')
    have hrr : ∀ m ∈ rest, readsOwnFlag m :=
      fun m' h' => hread m' (List.mem_cons_of_mem _ h')
    have hsr : ∀ m ∈ rest, m.name ∈ s :=
      fun m' h' => hs m' (List.mem_cons_of_mem _ h')
    rcases hv : a.actions.verify with _ | f
    · have hstep : runVerifyStep a s = (s, []) := by rw [runVerifyStep, hv]
      have hfilt : List.filter
          (fun m => m.actions.verify.isSome && m.actions.enacted.isNone) (a :: rest)
          = List.filter
            (fun m => m.actions.verify.isSome && m.actions.enacted.isNone) rest := by
        simp [List.filter_cons, hv]
      rw [runVerify, hstep, hfilt]
      show ([] : List MigEvent) ++ (runVerify rest s).2 = _
      rw [List.nil_append]
      exact ih hmr hrr s hsr
    · rcases hopt : a.actions.enacted with _ | p
      · have hstep : runVerifyStep a s = (f s, [MigEvent.verifyCall a.name]) := by
          simp [runVerifyStep, hv, isEnacted, hopt]
        have hfilt : List.filter
            (fun m => m.actions.verify.isSome && m.actions.enacted.isNone) (a :: rest)
            = a :: List.filter
              (fun m => m.actions.verify.isSome && m.actions.enacted.isNone) rest := by
          simp [List.filter_cons, hv, hopt]
        rw [runVerify, hstep, hfilt, List.map_cons]
        show [MigEvent.verifyCall a.name] ++ (runVerify rest (f s)).2 = _
        have hsr' : ∀ m ∈ rest, m.name ∈ f s :=
          fun m' h' => (hm a (List.mem_cons_self _ _)).2.2 f hv s m'.name
            (hs m' (List.mem_cons_of_mem _ h'))
        rw [ih hmr hrr (f s) hsr']
        rfl
      · have htrue : isEnacted a.actions s = true := by
          rw [isEnacted_some a.actions p hopt, hread a (List.mem_cons_self _ _) p hopt]
          simpa using hs a (List.mem_cons_self _ _)
        have hstep : runVerifyStep a s = (s, []) := by
          simp [runVerifyStep, hv, htrue]
        have hfilt : List.filter
            (fun m => m.actions.verify.isSome && m.actions.enacted.isNone) (a :: rest)
            = List.filter
              (fun m => m.actions.verify.isSome && m.actions.enacted.isNone) rest := by
          simp [List.filter_cons, hopt]
        rw [runVerify, hstep, hfilt]
        show ([] : List MigEvent) ++ (runVerify rest s).2 = _
        rw [List.nil_append]
        exact ih hmr hrr s hsr

/-- Verify calls made on a list of verify events, by name. -/
theorem verifyNames_map_verifyCall (l : List (Migration S A)) :
    verifyNames (l.map (fun m => MigEvent.verifyCall m.name)) = l.map (·.name) := by
  induction l with
  | nil => rfl
  | cons a t ih =>
    simp only [List.map_cons, verifyNames, List.filterMap_cons]
    rw [← verifyNames, ih]

/-- Concrete unit for the C1 counterexample: its predicate reads its own
applied-flag (so `enacted()` turns true right after `enact`, as the spec
invariant demands) and it defines a `verify` action. -/
def mFresh : Migration FlagState Unit :=
  ⟨"1500_m", ⟨fun s => ((), s), some (fun s => s.contains "1500_m"),
    fun _ s => "1500_m" :: s, some (fun s => s)⟩⟩

/-- C1 counterexample: `mFresh` is not enacted before the run, the scenario
run freshly enacts it (one `enact` call), it defines `verify` — yet the
verification Solution issues zero `verify` calls for it, because the
re-walk evaluates `isEnacted` after enactment, when the predicate is
already true.  The claim says a freshly applied unit is verified. -/
theorem verify_skips_fresh_cex :
    isEnacted mFresh.actions [] = false
    ∧ (verifySolution (migrationSolution [mFresh] ⟨[], none, []⟩)).log.count
        (MigEvent.enactCall "1500_m") = 1
    ∧ mFresh.actions.verify.isSome = true
    ∧ (verifySolution (migrationSolution [mFresh] ⟨[], none, []⟩)).log.count
        (MigEvent.verifyCall "1500_m") = 0 := by
  decide

/-- C1 (amended): the verification Solution re-walks the recorded subset
and calls `verify` only on units whose `enacted` predicate is false at the
time of that re-walk.  Since `enacted()` is true right after a successful
`enact` (and enactment is not undone), both units enacted before the run
and units freshly applied during the run are skipped: `verify` runs exactly
on the recorded units that define `verify` but no `enacted` predicate. -/
theorem verify_runs_only_on_unenacted (ms : List (Migration FlagState A))
    (s : FlagState)
    (hm : ∀ m ∈ ms, monotoneActs m) (hset : ∀ m ∈ ms, setsOwnFlag m)
    (hread : ∀ m ∈ ms, readsOwnFlag m) :
    verifyNames (verifySolution (migrationSolution ms ⟨s, none, []⟩)).log
      = ((sortMigrations ms).filter
          (fun m => m.actions.verify.isSome && m.actions.enacted.isNone)).map
            (·.name) := by
  have hperm := List.perm_insertionSort migLe ms
  have hm' : ∀ m ∈ sortMigrations ms, monotoneActs m :=
    fun m h => hm m (hperm.mem_iff.mp h)
  have hset' : ∀ m ∈ sortMigrations ms, setsOwnFlag m :=
    fun m h => hset m (hperm.mem_iff.mp h)
  have hread' : ∀ m ∈ sortMigrations ms, readsOwnFlag m :=
    fun m h => hread m (hperm.mem_iff.mp h)
  have hlhs : (verifySolution (migrationSolution ms ⟨s, none, []⟩)).log
      = (runMigrationList (sortMigrations ms) s).2
        ++ (runVerify (sortMigrations ms)
            (runMigrationList (sortMigrations ms) s).1).2 := by
    simp [migrationSolution, verifySolution]
  rw [hlhs, verifyNames, List.filterMap_append, ← verifyNames, ← verifyNames,
      verifyNames_runMigrationList, List.nil_append,
      runVerify_events _ hm' hread' _ (runMigrationList_flags _ hm' hset' hread' s),
      verifyNames_map_verifyCall]

/-- Concrete unit with a faithful predicate and a `verify` action. -/
def mPred15 : Migration FlagState Unit :=
  ⟨"1500_p", ⟨fun s => ((), s), some (fun s => s.contains "1500_p"),
    fun _ s => "1500_p" :: s, some (fun s => s)⟩⟩

/-- Concrete unit with no predicate and a `verify` action. -/
def mNoPred15 : Migration FlagState Unit :=
  ⟨"1500_v", ⟨fun s => ((), s), none, fun _ s => "1500_v" :: s, some (fun s => s)⟩⟩

theorem pair15_mono : ∀ m ∈ [mPred15, mNoPred15], monotoneActs m := by
  intro m hmem
  rcases List.mem_cons.mp hmem with h | h
  · subst h
    refine ⟨fun _ _ hx => hx, fun _ _ _ hx => List.mem_cons_of_mem _ hx, ?_⟩
    intro f hf
    have h' : (some fun s : FlagState => s) = some f := hf
    injection h' with h''
    subst h''
    exact fun _ _ hx => hx
  · rcases List.mem_cons.mp h with h' | h'
    · subst h'
      refine ⟨fun _ _ hx => hx, fun _ _ _ hx => List.mem_cons_of_mem _ hx, ?_⟩
      intro f hf
      have h2 : (some fun s : FlagState => s) = some f := hf
      injection h2 with h3
      subst h3
      exact fun _ _ hx => hx
    · cases h'

theorem pair15_sets : ∀ m ∈ [mPred15, mNoPred15], setsOwnFlag m := by
  intro m hmem
  rcases List.mem_cons.mp hmem with h | h
  · subst h
    exact fun _ s => List.mem_cons_self _ s
  · rcases List.mem_cons.mp h with h' | h'
    · subst h'
      exact fun _ s => List.mem_cons_self _ s
    · cases h'

theorem pair15_reads : ∀ m ∈ [mPred15, mNoPred15], readsOwnFlag m := by
  intro m hmem
  rcases List.mem_cons.mp hmem with h | h
  · subst h
    intro p hp s
    have h2 : (some fun s : FlagState => s.contains "1500_p") = some p := hp
    injection h2 with h3
    rw [← h3]
    rfl
  · rcases List.mem_cons.mp h with h' | h'
    · subst h'
      intro p hp
      exact absurd hp (by simp [mNoPred15])
    · cases h'

/-- Witness for the amended C1 at a concrete two-unit subset: the unit with
a predicate is skipped, the unit without one is verified. -/
theorem verify_runs_only_on_unenacted_witness :
    (∀ m ∈ [mPred15, mNoPred15], monotoneActs m)
    ∧ (∀ m ∈ [mPred15, mNoPred15], setsOwnFlag m)
    ∧ (∀ m ∈ [mPred15, mNoPred15], readsOwnFlag m)
    ∧ verifyNames (verifySolution (migrationSolution [mPred15, mNoPred15]
        ⟨[], none, []⟩)).log = ["1500_v"] :=
  ⟨pair15_mono, pair15_sets, pair15_reads,
    (verify_runs_only_on_unenacted [mPred15, mNoPred15] []
      pair15_mono pair15_sets pair15_reads).trans (by decide)⟩

/-- The subset generator enumerates 2^N subsets for a pool of N units. -/
theorem subsets_length (l : List α) : (subsets l).length = 2 ^ l.length := by
  induction l with
  | nil => rfl
  | cons a t ih =>
    simp only [subsets, List.length_append, List.length_map, ih, List.length_cons,
      pow_succ]
    omega

/-- Exactly one generated subset is empty: dropping it leaves 2^N − 1. -/
theorem subsets_filter_nonempty (l : List α) :
    ((subsets l).filter (fun ml => !(ml.length == 0))).length = 2 ^ l.length - 1 := by
  induction l with
  | nil => rfl
  | cons a t ih =>
    rw [subsets, List.filter_append, List.length_append, ih]
    have h2 : ((subsets t).map (a :: ·)).filter (fun ml => !(ml.length == 0))
        = (subsets t).map (a :: ·) := by
      apply List.filter_eq_self.mpr
      intro ml hml
      obtain ⟨x, _, rfl⟩ := List.mem_map.mp hml
      simp
    rw [h2, List.length_map, subsets_length]
    have h1 : 1 ≤ 2 ^ t.length := Nat.one_le_two_pow
    simp only [List.length_cons, pow_succ]
    omega

/-- C3 (amended): with `WITHOUT_MIGRATIONS` set the Solver produces one
Solution per subset of the powerset, 2^N in total; with it unset and a
nonempty pool the empty subset is skipped, leaving 2^N − 1 Solutions; for
an empty pool the sole (empty) subset is produced even when the
configuration would exclude it, giving 1 Solution rather than 2^0 − 1 = 0. -/
theorem solveSubsets_count (pool : List α) :
    (solveSubsets true pool).length = 2 ^ pool.length
    ∧ (pool ≠ [] → (solveSubsets false pool).length = 2 ^ pool.length - 1)
    ∧ (solveSubsets false ([] : List α)).length = 1 := by
  refine ⟨?_, ?_, rfl⟩
  · have h : solveSubsets true pool = subsets pool := by
      simp [solveSubsets]
    rw [h, subsets_length]
  · intro hne
    have hlen : 1 < (subsets pool).length := by
      rw [subsets_length]
      have : 1 ≤ pool.length := List.length_pos.mpr hne
      calc 1 < 2 ^ 1 := by omega
        _ ≤ 2 ^ pool.length := Nat.pow_le_pow_right (by omega) this
    have h : solveSubsets false pool
        = (subsets pool).filter (fun ml => !(ml.length == 0)) := by
      rw [solveSubsets]
      apply List.filter_congr
      intro ml _
      rw [decide_eq_true hlen]
      simp
    rw [h, subsets_filter_nonempty]

/-- C3 counterexample: for the empty pool with the empty subset "excluded
by configuration" (`WITHOUT_MIGRATIONS` unset), the Solver still produces
1 Solution, not 2^0 − 1 = 0. -/
theorem solveSubsets_empty_pool_cex :
    (solveSubsets false ([] : List (Migration FlagState Unit))).length = 1
    ∧ (1 : Nat) ≠ 2 ^ ([] : List (Migration FlagState Unit)).length - 1 :=
  ⟨rfl, by decide⟩

/-- Concrete unit for the C3 witness. -/
def mPool : Migration FlagState Unit :=
  ⟨"1644_p", ⟨fun s => ((), s), none, fun _ s => s, none⟩⟩

/-- Witness for the amended C3 at a one-unit pool. -/
theorem solveSubsets_count_witness :
    ([mPool] : List (Migration FlagState Unit)) ≠ []
    ∧ (solveSubsets false [mPool]).length
      = 2 ^ ([mPool] : List (Migration FlagState Unit)).length - 1 :=
  ⟨by simp, (solveSubsets_count [mPool]).2.1 (by simp)⟩

/-- Names of artifact-store calls in a run, in call order. -/
def storeNames (ev : List MigEvent) : List String :=
  ev.filterMap (fun e => match e with | .storeArtifactCall n => some n | _ => none)

/-- Modelled from the spec: `getArtifactSpec` (from the Migration module,
not among the shown sources) keys a migration's artifact by the migration
name. -/
def getArtifactSpec (m : Migration S A) : String := m.name

/-- `DeploymentManager.storeArtifact`: stores the artifact in the cache
under the migration's artifact key. -/
def storeArtifact (store : List (String × A)) (m : Migration S A) (artifact : A) :
    List (String × A) :=
  (getArtifactSpec m, artifact) :: store

/-- One loop iteration issues no artifact-store call. -/
theorem storeNames_runMigration (m : Migration S A) (s : S) :
    storeNames (runMigration m s).2 = [] := by
  rw [runMigration]
  cases h : isEnacted m.actions (m.actions.prepare s).2 <;> simp [storeNames]

/-- The migration pass issues no artifact-store call. -/
theorem storeNames_runMigrationList (ms : List (Migration S A)) (s : S) :
    storeNames (runMigrationList ms s).2 = [] := by
  induction ms generalizing s with
  | nil => rfl
  | cons m rest ih =>
    rw [runMigrationList]
    simp only [storeNames, List.filterMap_append]
    rw [← storeNames, ← storeNames, ih, storeNames_runMigration]
    rfl

/-- C8 counterexample: the Solver's migration Solution runs `prepare` for
the unit (one prepare call) but never calls `storeArtifact` for it —
the prepared artifact is handed straight to `enact`, not persisted. -/
theorem solver_stores_no_artifact_cex :
    (migrationSolution [mPool] ⟨[], none, []⟩).log.count
      (MigEvent.prepareCall "1644_p") = 1
    ∧ (migrationSolution [mPool] ⟨[], none, []⟩).log.count
      (MigEvent.storeArtifactCall "1644_p") = 0 := by
  decide

/-- C8 (amended): the Solver's migration Solution issues no
`storeArtifact` call for any unit of any subset; artifact persistence is
available separately on the DeploymentManager, keyed by migration name,
for out-of-band use. -/
theorem solver_artifact_handling (ms : List (Migration S A)) (s : S)
    (store : List (String × A)) (m : Migration S A) (artifact : A) :
    storeNames (migrationSolution ms ⟨s, none, []⟩).log = []
    ∧ (storeArtifact store m artifact).lookup (getArtifactSpec m) = some artifact := by
  constructor
  · have h : (migrationSolution ms ⟨s, none, []⟩).log
        = (runMigrationList (sortMigrations ms) s).2 := by
      simp [migrationSolution]
    rw [h, storeNames_runMigrationList]
  · simp [storeArtifact, List.lookup]

/-- The DeploymentManager state: the alias registry and proxy registry
(persisted through the Cache), the deployment counter, the in-memory
contract-handle cache (`contractsCache`), the address the runtime will give
the next constructed contract, and the addresses passed to the underlying
construct call so far (the construction log). -/
structure DMState where
  aliases : List (String × Nat)
  proxies : List (Nat × Nat)
  counter : Nat
  contractsCache : Option (List (String × Nat))
  nextAddr : Nat
  constructions : List Nat
  deriving DecidableEq, Repr

/-- The manager as built by the constructor: counter 0, no cache, empty
registries. -/
def DMState.init : DMState := ⟨[], [], 0, none, 1, []⟩

/-- Modelled from the spec: `putAlias` of the Aliases store (module not
among the shown sources) records alias ↦ address, last write winning. -/
def putAliasStore (aliases : List (String × Nat)) (al : String) (addr : Nat) :
    List (String × Nat) :=
  (al, addr) :: aliases

/-- `DeploymentManager.getAliases`: read the alias registry. -/
def getAliases (st : DMState) : List (String × Nat) := st.aliases

/-- `DeploymentManager.putAlias`: store the alias, then invalidate the
contracts cache. -/
def DMState.putAlias (st : DMState) (al : String) (addr : Nat) : DMState :=
  { st with aliases := putAliasStore st.aliases al addr, contractsCache := none }

/-- `DeploymentManager.putProxy`: store the proxy, then invalidate the
contracts cache. -/
def DMState.putProxy (st : DMState) (proxy target : Nat) : DMState :=
  { st with proxies := (proxy, target) :: st.proxies, contractsCache := none }

/-- Modelled from the spec: `getContracts` (ContractMap module not among
the shown sources) builds one handle per alias; a handle's address is the
aliased address (the proxy registry only selects the ABI). -/
def getContracts (st : DMState) : List (String × Nat) := st.aliases

/-- `DeploymentManager.contracts`: return the memory-cached handle map, or
rebuild it lazily when the cache was invalidated. -/
def DMState.contracts (st : DMState) : List (String × Nat) × DMState :=
  match st.contractsCache with
  | some cm => (cm, st)
  | none =>
    let cm := getContracts st
    (cm, { st with contractsCache := some cm })

/-- `DeploymentManager.contract`: look one alias up in the handle map. -/
def DMState.contract (st : DMState) (al : String) : Option Nat × DMState :=
  let r := st.contracts
  (r.1.lookup al, r.2)

/-- `DeploymentManager._deploy` on its success path: one underlying
construction (recorded in the construction log, yielding a fresh address),
then the deployment counter is incremented.  The retry wrapper around the
construction is embedded separately as `retry`. -/
def DMState.deployInner (st : DMState) : Nat × DMState :=
  let addr := st.nextAddr
  (addr, { st with nextAddr := st.nextAddr + 1,
                   constructions := st.constructions ++ [addr],
                   counter := st.counter + 1 })

/-- `DeploymentManager.deploy`: return the existing handle when the alias
resolves and `force` is not set; otherwise construct, then `putAlias`. -/
def DMState.deploy (st : DMState) (al : String) (force : Bool) : Nat × DMState :=
  let r := st.contract al
  match r.1, force with
  | some addr, false => (addr, r.2)
  | _, _ =>
    let d := r.2.deployInner
    (d.1, d.2.putAlias al d.1)

/-- `deploy` without `force` returns the existing handle when the alias
resolves. -/
theorem deploy_of_contract_some (u : DMState) (al : String) (addr : Nat)
    (u' : DMState) (h : u.contract al = (some addr, u')) :
    u.deploy al false = (addr, u') := by
  simp only [DMState.deploy, h]

/-- `deploy` constructs and stores the alias when the alias does not
resolve. -/
theorem deploy_of_contract_none (u : DMState) (al : String) (u' : DMState)
    (h : u.contract al = (none, u')) :
    u.deploy al false
      = (u'.deployInner.1, u'.deployInner.2.putAlias al u'.deployInner.1) := by
  simp only [DMState.deploy, h]

/-- C5: starting from a state whose contract cache is clean and in which
the alias does not yet resolve, the first `deploy` performs one underlying
construction, increments the counter and stores the alias; the second
`deploy` without `force` returns the same address, performs no construction
and leaves the counter unchanged — one construction in total. -/
theorem deploy_twice_one_construction (st : DMState) (al : String)
    (hfresh : st.aliases.lookup al = none) (hcache : st.contractsCache = none) :
    ((st.deploy al false).2.deploy al false).1 = (st.deploy al false).1
    ∧ ((st.deploy al false).2.deploy al false).2.counter
      = (st.deploy al false).2.counter
    ∧ ((st.deploy al false).2.deploy al false).2.constructions
      = (st.deploy al false).2.constructions
    ∧ (st.deploy al false).2.counter = st.counter + 1
    ∧ (st.deploy al false).2.constructions.length = st.constructions.length + 1
    ∧ (st.deploy al false).2.aliases.lookup al = some (st.deploy al false).1 := by
  have hc : st.contract al = (none, { st with contractsCache := some st.aliases }) := by
    rw [DMState.contract, DMState.contracts, hcache]
    simp [getContracts, hfresh]
  have h1 : st.deploy al false
      = (st.nextAddr,
          { st with aliases := (al, st.nextAddr) :: st.aliases,
                    contractsCache := none,
                    nextAddr := st.nextAddr + 1,
                    constructions := st.constructions ++ [st.nextAddr],
                    counter := st.counter + 1 }) := by
    rw [deploy_of_contract_none st al _ hc]
    simp [DMState.deployInner, DMState.putAlias, putAliasStore]
  have hc2 : ((st.deploy al false).2.contract al)
      = (some st.nextAddr,
          { (st.deploy al false).2 with
              contractsCache := some ((al, st.nextAddr) :: st.aliases) }) := by
    rw [h1, DMState.contract, DMState.contracts]
    simp [getContracts, List.lookup]
  have h2 : ((st.deploy al false).2.deploy al false)
      = (st.nextAddr,
          { (st.deploy al false).2 with
              contractsCache := some ((al, st.nextAddr) :: st.aliases) }) :=
    deploy_of_contract_some _ al st.nextAddr _ hc2
  rw [h2, h1]
  refine ⟨rfl, rfl, rfl, rfl, by simp, by simp [List.lookup]⟩

/-- Witness for C5 from the freshly constructed manager. -/
theorem deploy_twice_one_construction_witness :
    DMState.init.aliases.lookup "comet" = none
    ∧ DMState.init.contractsCache = none
    ∧ ((DMState.init.deploy "comet" false).2.deploy "comet" false).1
      = (DMState.init.deploy "comet" false).1 :=
  ⟨rfl, rfl, (deploy_twice_one_construction DMState.init "comet" rfl rfl).1⟩

/-- C7: `putAlias` followed by `getAliases` exposes the stored pair; both
`putAlias` and `putProxy` reset the in-memory contract-handle cache; and
the handle rebuilt on the next `contract` access resolves the alias to the
new address even when a stale cache existed before the mutation. -/
theorem putAlias_registry_and_cache (st : DMState) (al : String) (addr : Nat)
    (proxy target : Nat) :
    (getAliases (st.putAlias al addr)).lookup al = some addr
    ∧ (st.putAlias al addr).contractsCache = none
    ∧ (st.putProxy proxy target).contractsCache = none
    ∧ ((st.putAlias al addr).contract al).1 = some addr := by
  refine ⟨?_, rfl, rfl, ?_⟩
  · simp [getAliases, DMState.putAlias, putAliasStore, List.lookup]
  · rw [DMState.contract, DMState.contracts]
    simp [DMState.putAlias, getContracts, putAliasStore, List.lookup]

/-- The before/after report of `runDeployScript`: deployment counter and
crawl graph snapshots around the script execution. -/
structure DeploymentDelta where
  oldCount : Nat
  oldSpider : List (String × Nat)
  newCount : Nat
  newSpider : List (String × Nat)
  deriving DecidableEq, Repr

/-- Modelled from the spec: the Spider crawl (crawler modules not among the
shown sources).  It returns the crawl graph — alias ↦ address for the
deployment, seeded with the freshly `deployed` handles — persists it, and
invalidates the in-memory contract cache; it does not touch the deployment
counter or the construction log. -/
def DMState.spider (st : DMState) (deployed : List (String × Nat)) :
    List (String × Nat) × DMState :=
  (deployed ++ st.aliases, { st with contractsCache := none })

/-- `DeploymentManager.runDeployScript`: snapshot counter and crawl graph,
load the user deploy script, abort when it has no callable default export,
otherwise run it and snapshot counter and crawl graph again. -/
def DMState.runDeployScript (st : DMState)
    (script : Option (DMState → List (String × Nat) × DMState)) :
    Except String DeploymentDelta × DMState :=
  let oldCount := st.counter
  let r0 := st.spider []
  match script with
  | none => (.error "Missing deploy function", r0.2)
  | some deployFn =>
    let r1 := deployFn r0.2
    let newCount := r1.2.counter
    let r2 := r1.2.spider r1.1
    (.ok ⟨oldCount, r0.1, newCount, r2.1⟩, r2.2)

/-- A deploy script that performs `k` underlying deployments and returns
no named handles. -/
def iterateDeploys : Nat → DMState → List (String × Nat) × DMState
  | 0, st => ([], st)
  | k + 1, st => iterateDeploys k (st.deployInner).2

theorem iterateDeploys_spec (k : Nat) (st : DMState) :
    (iterateDeploys k st).1 = []
    ∧ (iterateDeploys k st).2.counter = st.counter + k
    ∧ (iterateDeploys k st).2.aliases = st.aliases := by
  induction k generalizing st with
  | zero => exact ⟨rfl, rfl, rfl⟩
  | succ n ih =>
    have h := ih (st.deployInner).2
    refine ⟨h.1, ?_, ?_⟩
    · rw [iterateDeploys, h.2.1]
      simp [DMState.deployInner]
      omega
    · rw [iterateDeploys, h.2.2]
      rfl

/-- C9: with no callable default export, `runDeployScript` aborts with an
error before running any deployment — counter and construction log are
those of the entry state; with a script performing k deployments it
reports the counter and crawl graph from before and after the script, the
counters differing by exactly k. -/
theorem runDeployScript_snapshots (st : DMState) (k : Nat) :
    (st.runDeployScript none).1 = .error "Missing deploy function"
    ∧ (st.runDeployScript none).2.counter = st.counter
    ∧ (st.runDeployScript none).2.constructions = st.constructions
    ∧ (st.runDeployScript (some (iterateDeploys k))).1
      = .ok ⟨st.counter, st.aliases, st.counter + k, st.aliases⟩ := by
  refine ⟨rfl, rfl, rfl, ?_⟩
  have h := iterateDeploys_spec k { st with contractsCache := none }
  rw [DMState.runDeployScript]
  simp only [DMState.spider, List.nil_append]
  rw [h.1, h.2.1, h.2.2]
  rfl

/-- Errors surfaced by a deployment attempt: a transient failure, or the
timeout wrapper aborting an attempt that exceeded its time limit. -/
inductive RetryErr
  | transient (msg : String)
  | timedOut
  deriving DecidableEq, Repr

/-- `DeploymentManager.retry` (with `asyncCallWithTimeout` modelled from
the spec: its Utils module is not among the shown sources; an attempt
resolves to a value or to an error, a timed-out attempt resolving to the
timeout error).  `attempt i` is the outcome of the i-th invocation of
`fn`; the result is the surfaced outcome, the number of underlying
attempts made, and the total wait time spent between attempts.  On failure
with budget left the wrapper waits, doubles the wait and retries; with the
budget exhausted it rethrows the last error. -/
def retry (attempt : Nat → Except RetryErr α) (i retries wait : Nat) :
    Except RetryErr α × Nat × Nat :=
  match attempt i with
  | .ok v => (.ok v, 1, 0)
  | .error e =>
    match retries with
    | 0 => (.error e, 1, 0)
    | r + 1 =>
      let r2 := retry attempt (i + 1) r (wait * 2)
      (r2.1, r2.2.1 + 1, r2.2.2 + wait)

/-- `retry` with the source defaults: retries = 5, wait = 250 ms. -/
def retryDefault (attempt : Nat → Except RetryErr α) :
    Except RetryErr α × Nat × Nat :=
  retry attempt 0 5 250

/-- Unfolding `retry` on a successful attempt. -/
theorem retry_ok_step (attempt : Nat → Except RetryErr α) (i r w : Nat) (v : α)
    (h : attempt i = .ok v) : retry attempt i r w = (.ok v, 1, 0) := by
  rw [retry, h]

/-- Unfolding `retry` on a failed attempt with the budget exhausted. -/
theorem retry_err_zero (attempt : Nat → Except RetryErr α) (i w : Nat)
    (e : RetryErr) (h : attempt i = .error e) :
    retry attempt i 0 w = (.error e, 1, 0) := by
  rw [retry, h]

/-- Unfolding `retry` on a failed attempt with budget left: wait, double
the wait, recurse. -/
theorem retry_err_step (attempt : Nat → Except RetryErr α) (i r w : Nat)
    (e : RetryErr) (h : attempt i = .error e) :
    retry attempt i (r + 1) w
      = ((retry attempt (i + 1) r (w * 2)).1,
         (retry attempt (i + 1) r (w * 2)).2.1 + 1,
         (retry attempt (i + 1) r (w * 2)).2.2 + w) := by
  rw [retry, h]

/-- Doubled-wait arithmetic for the backoff sum. -/
theorem backoff_arith (w t : Nat) (h : 1 ≤ t) :
    w * 2 * (t - 1) + w = w * (t * 2 - 1) := by
  obtain ⟨n, rfl⟩ : ∃ n, t = n + 1 := ⟨t - 1, by omega⟩
  simp only [Nat.add_sub_cancel]
  have h2 : (n + 1) * 2 - 1 = 2 * n + 1 := by omega
  rw [h2]
  ring

/-- After k failed attempts (k within budget) and a success, `retry`
surfaces the value with k+1 attempts and a total wait of
wait·(2^k − 1) — the base wait doubling after each failure. -/
theorem retry_ok_after_failures (attempt : Nat → Except RetryErr α) :
    ∀ (k i r w : Nat) (v : α), k ≤ r →
    (∀ j, j < k → ∃ e, attempt (i + j) = .error e) →
    attempt (i + k) = .ok v →
    retry attempt i r w = (.ok v, k + 1, w * (2 ^ k - 1)) := by
  intro k
  induction k with
  | zero =>
    intro i r w v _ _ hok
    simp only [Nat.add_zero] at hok
    rw [retry_ok_step attempt i r w v hok]
    simp
  | succ n ih =>
    intro i r w v hkr hfail hok
    obtain ⟨e, he⟩ := hfail 0 (Nat.succ_pos n)
    simp only [Nat.add_zero] at he
    obtain ⟨r', rfl⟩ : ∃ r', r = r' + 1 :=
      ⟨r - 1, by omega⟩
    have hrec := ih (i + 1) r' (w * 2) v (by omega)
      (fun j hj => by
        obtain ⟨e', he'⟩ := hfail (j + 1) (by omega)
        exact ⟨e', by rw [show i + 1 + j = i + (j + 1) by omega]; exact he'⟩)
      (by rw [show i + 1 + n = i + (n + 1) by omega]; exact hok)
    rw [retry_err_step attempt i r' w e he, hrec]
    have h1 : 1 ≤ 2 ^ n := Nat.one_le_two_pow
    refine congrArg (fun t => (Except.ok v, n + 1 + 1, t)) ?_
    rw [pow_succ]
    exact backoff_arith w (2 ^ n) h1

/-- When every attempt in the budget fails, `retry` makes retries+1
attempts, rethrows the last error, and waits wait·(2^retries − 1) in
total. -/
theorem retry_exhausts_rethrows_last (attempt : Nat → Except RetryErr α) :
    ∀ (r i w : Nat) (es : Nat → RetryErr),
    (∀ j, j ≤ r → attempt (i + j) = .error (es j)) →
    retry attempt i r w = (.error (es r), r + 1, w * (2 ^ r - 1)) := by
  intro r
  induction r with
  | zero =>
    intro i w es h
    have h0 := h 0 (Nat.le_refl 0)
    simp only [Nat.add_zero] at h0
    rw [retry_err_zero attempt i w _ h0]
    simp
  | succ n ih =>
    intro i w es h
    have h0 := h 0 (Nat.zero_le _)
    simp only [Nat.add_zero] at h0
    have hrec := ih (i + 1) (w * 2) (fun j => es (j + 1))
      (fun j hj => by
        rw [show i + 1 + j = i + (j + 1) by omega]
        exact h (j + 1) (by omega))
    rw [retry_err_step attempt i n w _ h0, hrec]
    have h1 : 1 ≤ 2 ^ n := Nat.one_le_two_pow
    refine congrArg (fun t => (Except.error (es (n + 1)), n + 1 + 1, t)) ?_
    rw [pow_succ]
    exact backoff_arith w (2 ^ n) h1

/-- C6: with the default budget (retries = 5, base wait = 250 ms), an
action that fails twice — with any errors, a timed-out attempt counting
the same as any failed attempt — and succeeds on the third try makes
exactly 3 underlying attempts with a total delay of 250 + 500 ms before
success, so at least 250 + 500 ms elapse; and whenever every attempt in
the budget fails, the last underlying error is rethrown after 6 attempts
with the doubling waits summing to 250·(2^5 − 1). -/
theorem retry_backoff_spec (attempt : Nat → Except RetryErr α) (e0 e1 : RetryErr)
    (v : α) (h0 : attempt 0 = .error e0) (h1 : attempt 1 = .error e1)
    (h2 : attempt 2 = .ok v) :
    retryDefault attempt = (.ok v, 3, 250 + 500)
    ∧ 250 + 500 ≤ (retryDefault attempt).2.2
    ∧ ∀ (att : Nat → Except RetryErr α) (es : Nat → RetryErr),
        (∀ j, att j = .error (es j)) →
        retryDefault att = (.error (es 5), 6, 250 * (2 ^ 5 - 1)) := by
  have hmain : retryDefault attempt = (.ok v, 3, 250 + 500) := by
    rw [retryDefault]
    have := retry_ok_after_failures attempt 2 0 5 250 v (by omega)
      (fun j hj => by
        match j, hj with
        | 0, _ => exact ⟨e0, h0⟩
        | 1, _ => exact ⟨e1, h1⟩)
      (by simpa using h2)
    rw [this]
    rfl
  refine ⟨hmain, by rw [hmain], ?_⟩
  intro att es hall
  rw [retryDefault]
  exact retry_exhausts_rethrows_last att 5 0 250 es (fun j _ => by simpa using hall j)

/-- Concrete attempt run for the C6 witness: a transient failure, then a
timed-out attempt, then success. -/
def attemptTwoFailures : Nat → Except RetryErr Nat
  | 0 => .error (.transient "nonce too low")
  | 1 => .error .timedOut
  | _ => .ok 7

/-- Witness for C6 at a concrete attempt run. -/
theorem retry_backoff_spec_witness :
    attemptTwoFailures 0 = .error (.transient "nonce too low")
    ∧ attemptTwoFailures 1 = .error .timedOut
    ∧ attemptTwoFailures 2 = .ok 7
    ∧ retryDefault attemptTwoFailures = (.ok 7, 3, 750) :=
  ⟨rfl, rfl, rfl,
    (retry_backoff_spec attemptTwoFailures _ _ 7 rfl rfl rfl).1⟩
